import Mathlib

set_option maxHeartbeats 1000000

/-!
Verification of the edgedict RNN-Transducer inference code
(`src/models.py`, `src/tokenizer.py`) against its natural-language
specification.  The Python code is shallowly embedded: tensors become
lists, machine floats become real numbers, the opaque recurrent networks
(LSTM encoder / decoder, joint network) become abstract step functions
collected in a `Transducer` structure, and the decoding loops become
structural recursions that mirror the source line by line.
-/

/- ------------------------------------------------------------------
   tokenizer.py: reserved token ids (lines 8-12)
   ------------------------------------------------------------------ -/

/-- Reserved id `NUL = 0` (the blank token), tokenizer.py line 8. -/
def NUL : ℕ := 0

/-- Reserved id `PAD = 1`, tokenizer.py line 9. -/
def PAD : ℕ := 1

/-- Reserved id `BOS = 2`, tokenizer.py line 10. -/
def BOS : ℕ := 2

/-- Reserved id `EOS = 3`, tokenizer.py line 11. -/
def EOS : ℕ := 3

/-- Reserved id `UNK = 4`, tokenizer.py line 12. -/
def UNK : ℕ := 4

/- ------------------------------------------------------------------
   tokenizer.py: CharTokenizer.__init__ (lines 51-64).
   Characters are represented by their ASCII codes.
   ------------------------------------------------------------------ -/

/-- ASCII codes of Python `string.ascii_lowercase` (codes 97..122). -/
def asciiLowercase : List ℕ := (List.range 26).map (fun i => 97 + i)

/-- ASCII codes of Python `string.punctuation`: the 32 printable
non-alphanumeric non-space characters, codes 33..47, 58..64, 91..96
and 123..126. -/
def asciiPunctuation : List ℕ :=
  ((List.range 15).map (fun i => 33 + i)) ++ ((List.range 7).map (fun i => 58 + i)) ++
    ((List.range 6).map (fun i => 91 + i)) ++ ((List.range 4).map (fun i => 123 + i))

/-- `valid_tokens = string.ascii_lowercase + string.punctuation + ' '`
(tokenizer.py line 53). -/
def validTokens : List ℕ := asciiLowercase ++ asciiPunctuation ++ [32]

/-- The ordinary-character id assignment of `CharTokenizer.__init__`
(tokenizer.py lines 58-59): `for idx, token in enumerate(valid_tokens):
self.token2id[token] = idx + 4`.  `valid_tokens` has no duplicates, so a
character's id is its position in `valid_tokens` plus 4. -/
def charTokenId (c : ℕ) : Option ℕ :=
  (validTokens.findIdx? (fun t => t == c)).map (fun i => i + 4)

/- ------------------------------------------------------------------
   models.py line 330-331 (commented-out beam-search section):
   def log_aplusb(a, b): return max(a, b) + math.log1p(math.exp(-math.fabs(a-b)))
   ------------------------------------------------------------------ -/

/-- `log_aplusb` from models.py lines 330-331: the numerically stable
log-sum-exp combiner `max(a,b) + log1p(exp(-|a-b|))`. -/
noncomputable def log_aplusb (a b : ℝ) : ℝ :=
  max a b + Real.log (1 + Real.exp (-|a - b|))

/- ------------------------------------------------------------------
   models.py, class Transducer (lines 156-235).

   The tensors are embedded as lists:
   a feature/hidden vector is `Vec = List ℝ`, a batch of sequences is
   `List (List Vec)` (batch-major, then time), the per-layer LSTM state
   `(h, c)` of one batch element is `DecState = List (Vec × Vec)`
   (one `(h, c)` pair per layer; the code stores these layer-first).

   The opaque learned components (encoder LSTM, encoder_fc, embedding +
   decoder LSTM, joint network) are abstract functions in the structure:
   per-batch-element steps, which is faithful because LSTM, Linear,
   Embedding and the joint MLP all act on each batch element
   independently, and a unidirectional LSTM is causal, i.e. it is a scan
   of a step function along the time axis.
   ------------------------------------------------------------------ -/

/-- A real-valued feature or hidden vector (one row of a tensor). -/
abbrev Vec : Type := List ℝ

/-- The decoder LSTM state `(h, c)` of a single batch element:
one `(h, c)` pair per layer (the code keeps `h`, `c` layer-first). -/
abbrev DecState : Type := List (Vec × Vec)

/-- Elementwise tensor addition `h_enc[:, i] + h_pre[:, 0]` on one row. -/
def vecAdd (v w : Vec) : Vec := List.zipWith (· + ·) v w

/-- The `Transducer` module of models.py (lines 156-186), with the
learned submodules abstracted to single-element step functions:
* `encStep` : one time step of the (multi-layer, unidirectional, hence
  causal) `self.encoder` LSTM for one batch element;
* `encFc`   : the `self.encoder_fc` linear layer on one hidden vector;
* `decInit` : the all-zero initial decoder LSTM state;
* `decStep` : `self.embed` followed by one step of the `self.decoder`
  LSTM for one batch element, returning the output `h_pre` vector and
  the new `(h, c)` state;
* `joint`   : the `self.joint` MLP producing the vocabulary logits. -/
structure Transducer (σe : Type) where
  blank : ℕ
  encInit : σe
  encStep : σe → Vec → σe × Vec
  encFc : Vec → Vec
  decInit : DecState
  decStep : DecState → ℕ → Vec × DecState
  joint : Vec → List ℝ

/-- The raw outputs of the encoder LSTM on one batch element: the causal
scan of `encStep` along the frames (`h_enc, _ = self.encoder(xs)`,
models.py line 207, restricted to one row). -/
def encOut (M : Transducer σe) : σe → List Vec → List Vec
  | _, [] => []
  | s, f :: rest =>
    let r := M.encStep s f
    r.2 :: encOut M r.1 rest

/-- `h_enc = self.encoder_fc(h_enc)` applied after the encoder scan
(models.py lines 207-208) on one batch element. -/
def encodeSeq (M : Transducer σe) (frames : List Vec) : List Vec :=
  (encOut M M.encInit frames).map M.encFc

/-- `log_softmax` over the vocabulary dimension for one logits row
(`probs = F.log_softmax(logits, dim=1)`, models.py line 218):
every entry `x` becomes `x - log (Σ exp)`. -/
noncomputable def logSoftmax (l : List ℝ) : List ℝ :=
  l.map (fun x => x - Real.log ((l.map Real.exp).sum))

/-- The value part of `torch.max(probs, dim=1)` on one row: the maximum
entry (0 as junk default on the empty row, which cannot occur since the
vocabulary is nonempty). -/
noncomputable def maxVal (l : List ℝ) : ℝ := l.foldr max (l.headD 0)

/-- The index part of `torch.max(probs, dim=1)` on one row:
the first index attaining the maximum. -/
noncomputable def argmaxIdx (l : List ℝ) : ℕ := l.indexOf (maxVal l)

/-- `zipWith3` over three lists (used to express the per-element masked
state update). -/
def zipWith3 (f : α → β → γ → δ) : List α → List β → List γ → List δ
  | a :: as, b :: bs, c :: cs => f a b c :: zipWith3 f as bs cs
  | _, _, _ => []

/-- One iteration of the greedy loop body (models.py lines 216-227) on
the whole batch: given the encoder outputs `encB` at the current time
step and the per-element predictor outputs `hpres` and states `sts`,
compute the joint logits, take log-softmax, pick per-element arg-max
token `pred` and its log-probability `prob`, advance the decoder by one
step for the whole batch, and adopt the candidate `h_pre` / `(h, c)`
only for the elements whose `pred` differs from `blank`
(`h_pre[pred != self.blank, ...] = new_h_pre[pred != self.blank, ...]`
and likewise for `h` and `c`). -/
noncomputable def greedyStep (M : Transducer σe) (encB hpres : List Vec)
    (sts : List DecState) :
    List ℕ × List ℝ × List Vec × List DecState :=
  let probsB := List.zipWith (fun e d => logSoftmax (M.joint (vecAdd e d))) encB hpres
  let predB := probsB.map argmaxIdx
  let probB := probsB.map maxVal
  let advB := List.zipWith (fun s p => M.decStep s p) sts predB
  let hpres2 := zipWith3 (fun p d (a : Vec × DecState) =>
    if p = M.blank then d else a.1) predB hpres advB
  let sts2 := zipWith3 (fun p s (a : Vec × DecState) =>
    if p = M.blank then s else a.2) predB sts advB
  (predB, probB, hpres2, sts2)

/-- The greedy time loop `for i in range(h_enc.shape[1])`
(models.py lines 215-227), recursing over the list of time indices.
It returns, per batch element, the list of chosen tokens (row `b` of
`torch.stack(y_seq, dim=1)`) and the sum of the chosen
log-probabilities over all steps (`torch.stack(log_p, dim=1).sum(dim=1)`,
line 229). -/
noncomputable def greedyLoop (M : Transducer σe) (henc : List (List Vec)) :
    List ℕ → List Vec → List DecState → List (List ℕ) × List ℝ
  | [], hpres, _ => (hpres.map (fun _ => []), hpres.map (fun _ => 0))
  | i :: rest, hpres, sts =>
    let encB := henc.map (fun row => row.getD i [])
    let r := greedyStep M encB hpres sts
    let rr := greedyLoop M henc rest r.2.2.1 r.2.2.2
    (List.zipWith (fun p ys => p :: ys) r.1 rr.1,
     List.zipWith (fun q s => q + s) r.2.1 rr.2)

/-- The time dimension `xs.shape[1]` of a (rectangular) batch tensor. -/
def tensorT (xs : List (List α)) : ℕ := (xs.headD []).length

/-- `Transducer.greedy_decode` up to and including line 229: encode the
batch, initialise the decoder with `BOS` (`bos = ...new_ones(...) * BOS`;
`h_pre, (h, c) = self.decoder(self.embed(bos))`, lines 210-211 — every
batch element starts from the same zero-state `BOS` step), then run the
greedy loop over all `h_enc.shape[1]` time steps.  Returns the
pre-truncation token matrix `y_seq` (batch-major) and the per-element
log-probability sums `log_p`. -/
noncomputable def greedyRaw (M : Transducer σe) (xs : List (List Vec)) :
    List (List ℕ) × List ℝ :=
  let henc := xs.map (fun row => encodeSeq M row)
  let d0 := M.decStep M.decInit BOS
  let hpres := List.replicate xs.length d0.1
  let sts := List.replicate xs.length d0.2
  greedyLoop M henc (List.range (tensorT henc)) hpres sts

/-- `Transducer.greedy_decode` (models.py lines 205-235).  After the
greedy loop, each token row is truncated to its `valid_length` and the
blank tokens are filtered out (`for seq, seq_len in zip(y_seq, xlen):
seq = seq.cpu().numpy()[:seq_len];
ret_y.append(list(filter(lambda tok: tok != self.blank, seq)))`,
lines 232-234; note that Python `zip` silently truncates to the shorter
of `y_seq` and `xlen`), and the returned score is `-log_p` (line 235),
which is not truncated by `valid_length`. -/
noncomputable def greedy_decode (M : Transducer σe) (xs : List (List Vec))
    (xlen : List ℕ) : List (List ℕ) × List ℝ :=
  let r := greedyRaw M xs
  (List.zipWith (fun (seq : List ℕ) (len : ℕ) =>
      (seq.take len).filter (fun tok => tok != M.blank)) r.1 xlen,
   r.2.map (fun s => -s))

/-- Per-element greedy decoding over a list of encoder output vectors:
the straight-line formulation of what the batched loop does to one batch
element (each list entry is the `(pred, prob)` pair of one time step).
Used to state and prove the batched-to-per-element factorisation. -/
noncomputable def decodeSteps (M : Transducer σe) :
    List Vec → Vec → DecState → List (ℕ × ℝ)
  | [], _, _ => []
  | e :: rest, hpre, st =>
    let probs := logSoftmax (M.joint (vecAdd e hpre))
    let p := argmaxIdx probs
    let q := maxVal probs
    let a := M.decStep st p
    (p, q) :: decodeSteps M rest (if p = M.blank then hpre else a.1)
      (if p = M.blank then st else a.2)

/- ------------------------------------------------------------------
   A concrete Transducer instance for counterexamples and witnesses.
   ------------------------------------------------------------------ -/

/-- A concrete `Transducer` instance: identity encoder step, identity
`encoder_fc`, a decoder step returning the constant vector `[0]`, and a
constant two-logit joint network (vocabulary size 2, blank = 0). -/
noncomputable def Mex : Transducer Unit where
  blank := 0
  encInit := ()
  encStep := fun _ f => ((), f)
  encFc := fun v => v
  decInit := []
  decStep := fun s _ => ([0], s)
  joint := fun _ => [0, 0]

/-- A batch of three identical 5-frame feature sequences (one-dimensional
features, all zero). -/
noncomputable def xsEx : List (List Vec) :=
  List.replicate 3 (List.replicate 5 [(0 : ℝ)])

/- ------------------------------------------------------------------
   models.py: TimeReduction (lines 10-21) and LayerNormRNN (lines 24-66)
   ------------------------------------------------------------------ -/

/-- The all-zero hidden vector of width `H` (padding value of
`nn.functional.pad`). -/
def vecZero (H : ℕ) : Vec := List.replicate H 0

/-- Elementwise sum of a group of vectors of width `H`. -/
def vecSum (H : ℕ) (l : List Vec) : Vec := l.foldr vecAdd (vecZero H)

/-- Elementwise mean of a group of `r` vectors (`xs.mean(dim=2)`). -/
noncomputable def vecMean (r H : ℕ) (l : List Vec) : Vec :=
  (vecSum H l).map (fun x => x / (r : ℝ))

/-- Split a list into consecutive groups of `r` (the `view(batch_size,
-1, reduction_factor, hidden_size)` grouping of the time axis). -/
def chunks (r : ℕ) : List α → List (List α)
  | [] => []
  | a :: rest =>
    if _h : r = 0 then []
    else ((a :: rest).take r) :: chunks r ((a :: rest).drop r)
termination_by l => l.length
decreasing_by
  simp only [List.length_drop, List.length_cons]
  omega

/-- The `pad` argument of `torch.nn.functional.pad` as the call sites of
this repository build it: either a flat sequence of ints — the only form
the torch API accepts — or a nested per-axis list of `[before, after]`
pairs (the TensorFlow `tf.pad` convention, which torch rejects). -/
inductive PadSpec where
  | flat (pad : List ℕ)
  | nested (pad : List (List ℕ))

/-- The external collaborator `torch.nn.functional.pad` on a
`(batch, time, hidden)` tensor.  Its `pad` argument must be a flat
sequence of ints, two entries per padded dimension starting from the
last: `flat [hl, hr, tl, tr]` zero-pads the hidden axis by `hl`/`hr` and
the time axis by `tl`/`tr`.  A nested per-axis list is not a sequence of
ints, so the call raises (`TypeError` / failed even-length assertion)
before doing any padding — modelled as `none`.  (No call site of this
repository ever builds a flat pad; torch's further flat arities are
outside the fragment used here.) -/
def functionalPad (pad : PadSpec) (xs : List (List Vec)) :
    Option (List (List Vec)) :=
  match pad with
  | .nested _ => none
  | .flat [hl, hr, tl, tr] =>
    some (xs.map (fun row =>
      List.replicate tl (vecZero (hl + (((xs.headD []).headD []).length) + hr))
        ++ row.map (fun v => List.replicate hl 0 ++ v ++ List.replicate hr 0)
        ++ List.replicate tr (vecZero (hl + (((xs.headD []).headD []).length) + hr))))
  | .flat _ => none

/-- `TimeReduction.forward` (models.py lines 15-21), line by line:
`pad_shape = [[0, 0], [0, xlen % self.reduction_factor], [0, 0]]`
builds a NESTED per-axis pad list (the TensorFlow convention), and
`nn.functional.pad(xs, pad_shape)` therefore raises on every call — the
nested list is not the flat int sequence torch requires — before the
`view(batch_size, -1, self.reduction_factor, hidden_size)` regrouping
and the `mean(dim=2)` averaging (lines 19-21, kept in the success branch
of the `pad` result, which is never reached) can happen. -/
noncomputable def timeReduction (r : ℕ) (xs : List (List Vec)) :
    Option (List (List Vec)) :=
  match functionalPad (PadSpec.nested [[0, 0], [0, tensorT xs % r], [0, 0]]) xs with
  | none => none
  | some padded =>
    if 0 < r ∧ tensorT padded % r = 0 then
      some (padded.map (fun row => (chunks r row).map
        (fun g => vecMean r (((padded.headD []).headD []).length) g)))
    else none

/-- One layer of `LayerNormRNN`: the recurrent module `self.rnns[i]`
(taking the layer input and an optional incoming hidden state and
returning outputs and a new hidden state) together with the per-layer
post-processing pipeline `self.projs[i]` (time reduction, projection,
dropout, layer normalization) built in `LayerNormRNN.__init__`
(models.py lines 37-54). -/
structure LNLayer (H : Type) where
  rnn : List Vec → Option H → List Vec × H
  proj : List Vec → List Vec

/-- `LayerNormRNN.forward` (models.py lines 56-66) with `hiddens=None`,
exactly as written: the loop `for rnn, proj, hidden in zip(self.rnns,
self.projs, hiddens): xs, new_hidden = rnn(xs, hidden);
new_hiddens.append(new_hidden)` feeds each layer's raw recurrent output
directly to the next layer — the unpacked `proj` is never applied. -/
def layerNormRNN_forward {H : Type} : List (LNLayer H) → List Vec → List Vec × List H
  | [], xs => (xs, [])
  | layer :: rest, xs =>
    let r := layer.rnn xs none
    let rr := layerNormRNN_forward rest r.1
    (rr.1, r.2 :: rr.2)

/-- Follows the spec's words (§4.1, claim C5): each recurrent layer's
output is passed through that layer's per-layer processing pipeline
(`self.projs[i]`: normalization, optional projection, dropout, time
reduction where configured) before being given to the next layer. -/
def layerNormRNN_forwardSpec {H : Type} : List (LNLayer H) → List Vec → List Vec × List H
  | [], xs => (xs, [])
  | layer :: rest, xs =>
    let r := layer.rnn xs none
    let rr := layerNormRNN_forwardSpec rest (layer.proj r.1)
    (rr.1, r.2 :: rr.2)

/-- A concrete `LNLayer` whose recurrent part is the identity (with unit
hidden state) and whose per-layer pipeline adds 1 to every entry. -/
noncomputable def lnLayerEx : LNLayer Unit where
  rnn := fun v _ => (v, ())
  proj := fun rows => rows.map (fun vec => vec.map (fun x => x + 1))

/- ------------------------------------------------------------------
   Helper lemmas for log_aplusb
   ------------------------------------------------------------------ -/

theorem log_aplusb_of_le (a b : ℝ) (h : b ≤ a) :
    log_aplusb a b = Real.log (Real.exp a + Real.exp b) := by
  have hmax : max a b = a := max_eq_left h
  have habs : |a - b| = a - b := abs_of_nonneg (sub_nonneg.mpr h)
  have hpos : (0:ℝ) < 1 + Real.exp (-(a - b)) := by positivity
  have hb : a + -(a - b) = b := by ring
  have hx : Real.exp a * (1 + Real.exp (-(a - b))) = Real.exp a + Real.exp b := by
    rw [mul_add, mul_one, ← Real.exp_add, hb]
  calc log_aplusb a b = a + Real.log (1 + Real.exp (-(a - b))) := by
        rw [log_aplusb, hmax, habs]
    _ = Real.log (Real.exp a) + Real.log (1 + Real.exp (-(a - b))) := by
        rw [Real.log_exp]
    _ = Real.log (Real.exp a * (1 + Real.exp (-(a - b)))) := by
        rw [Real.log_mul (Real.exp_ne_zero a) (ne_of_gt hpos)]
    _ = Real.log (Real.exp a + Real.exp b) := by rw [hx]

theorem log_aplusb_comm (a b : ℝ) : log_aplusb a b = log_aplusb b a := by
  rw [log_aplusb, log_aplusb, max_comm, abs_sub_comm]

/-- Claim C9: the beam-search prefix-merge combiner
`log_aplusb(a, b) = max(a, b) + log1p(exp(-|a-b|))` equals
`log(exp a + exp b)` for all reals, and merging a correction `b` into a
hypothesis log-probability `a` via `log_aplusb` yields a value `≥ a`. -/
theorem log_aplusb_eq_logsumexp (a b : ℝ) :
    log_aplusb a b = Real.log (Real.exp a + Real.exp b) ∧ a ≤ log_aplusb a b := by
  have heq : log_aplusb a b = Real.log (Real.exp a + Real.exp b) := by
    rcases le_total b a with h | h
    · exact log_aplusb_of_le a b h
    · rw [log_aplusb_comm, log_aplusb_of_le b a h, add_comm]
  refine ⟨heq, ?_⟩
  rw [heq]
  have h1 : Real.exp a ≤ Real.exp a + Real.exp b :=
    le_add_of_nonneg_right (Real.exp_pos b).le
  calc a = Real.log (Real.exp a) := (Real.log_exp a).symm
    _ ≤ Real.log (Real.exp a + Real.exp b) := Real.log_le_log (Real.exp_pos a) h1

/-- Claim C1 counterexample: on a batch of three identical 5-frame
feature sequences with valid lengths `[5, 3, 5]`, the scores returned by
`greedy_decode` are all equal — in particular element 1's score equals
element 0's and element 2's, refuting the claim that the score sums only
the first `valid_length` chosen log-probabilities and that element 1's
score differs.  (Line 229 of models.py sums `log_p` over all
`h_enc.shape[1]` steps before the `xlen` truncation loop, which only
affects the token lists.) -/
theorem greedy_scores_equal_example :
    (greedy_decode Mex xsEx [5, 3, 5]).2.getD 1 0
      = (greedy_decode Mex xsEx [5, 3, 5]).2.getD 0 0 ∧
    (greedy_decode Mex xsEx [5, 3, 5]).2.getD 2 0
      = (greedy_decode Mex xsEx [5, 3, 5]).2.getD 0 0 := by
  exact ⟨rfl, rfl⟩

/-- Claim C7 counterexample: calling `greedy_decode` on a batch of two
feature sequences with a single-entry `valid_lengths` does not fail —
no shape check exists in models.py lines 205-235 — and returns only one
token sequence: the Python `zip(y_seq, xlen)` on line 232 silently drops
the second batch element. -/
theorem greedy_no_shape_error_example :
    (greedy_decode Mex [[[(0 : ℝ)]], [[(0 : ℝ)]]] [1]).1.length = 1 ∧
    ([[[(0 : ℝ)]], [[(0 : ℝ)]]] : List (List Vec)).length = 2 := by
  exact ⟨rfl, rfl⟩

/- ------------------------------------------------------------------
   List helper lemmas (indexing into zipWith / zipWith3 / map outputs)
   ------------------------------------------------------------------ -/

theorem zipWith_getD (f : α → β → γ) :
    ∀ (l1 : List α) (l2 : List β) (i : ℕ), i < l1.length → i < l2.length →
      ∀ (d : γ) (d1 : α) (d2 : β),
        (List.zipWith f l1 l2).getD i d = f (l1.getD i d1) (l2.getD i d2)
  | a :: _, b :: _, 0, _, _, _, _, _ => rfl
  | a :: l1, b :: l2, i + 1, h1, h2, d, d1, d2 => by
    simpa using zipWith_getD f l1 l2 i (by simpa using h1) (by simpa using h2) d d1 d2

theorem zipWith3_getD (f : α → β → γ → δ) :
    ∀ (l1 : List α) (l2 : List β) (l3 : List γ) (i : ℕ),
      i < l1.length → i < l2.length → i < l3.length →
      ∀ (d : δ) (d1 : α) (d2 : β) (d3 : γ),
        (zipWith3 f l1 l2 l3).getD i d = f (l1.getD i d1) (l2.getD i d2) (l3.getD i d3)
  | a :: _, b :: _, c :: _, 0, _, _, _, _, _, _, _ => rfl
  | a :: l1, b :: l2, c :: l3, i + 1, h1, h2, h3, d, d1, d2, d3 => by
    simpa [zipWith3] using zipWith3_getD f l1 l2 l3 i (by simpa using h1)
      (by simpa using h2) (by simpa using h3) d d1 d2 d3

theorem length_zipWith3 (f : α → β → γ → δ) :
    ∀ (l1 : List α) (l2 : List β) (l3 : List γ),
      (zipWith3 f l1 l2 l3).length = min l1.length (min l2.length l3.length)
  | [], _, _ => by cases ‹List β› <;> cases ‹List γ› <;> simp [zipWith3]
  | _ :: _, [], _ => by cases ‹List γ› <;> simp [zipWith3]
  | _ :: _, _ :: _, [] => by simp [zipWith3]
  | a :: l1, b :: l2, c :: l3 => by
    simp [zipWith3, length_zipWith3 f l1 l2 l3]
    omega

theorem map_getD (f : α → β) :
    ∀ (l : List α) (i : ℕ), i < l.length → ∀ (d : β) (d1 : α),
      (l.map f).getD i d = f (l.getD i d1)
  | a :: _, 0, _, _, _ => rfl
  | a :: l, i + 1, h, d, d1 => by
    simpa using map_getD f l i (by simpa using h) d d1

theorem replicate_getD (n i : ℕ) (x : α) (h : i < n) (d : α) :
    (List.replicate n x).getD i d = x := by
  rw [List.getD_eq_getElem _ d (by simpa using h)]
  simp

/- ------------------------------------------------------------------
   Structural lemmas about the embedded decoder
   ------------------------------------------------------------------ -/

theorem greedyStep_lengths (M : Transducer σe) (encB hpres : List Vec)
    (sts : List DecState) (h1 : hpres.length = encB.length)
    (h2 : sts.length = encB.length) :
    (greedyStep M encB hpres sts).1.length = encB.length ∧
    (greedyStep M encB hpres sts).2.1.length = encB.length ∧
    (greedyStep M encB hpres sts).2.2.1.length = encB.length ∧
    (greedyStep M encB hpres sts).2.2.2.length = encB.length := by
  refine ⟨?_, ?_, ?_, ?_⟩ <;>
    simp [greedyStep, length_zipWith3, List.length_zipWith, h1, h2]

/-- Element `b` of each component of `greedyStep`: the chosen token is
the arg-max of element `b`'s own log-softmax row, its log-probability is
that row's maximum, and the new predictor output / state are the masked
conditional update computed from element `b`'s own data only. -/
theorem greedyStep_getD (M : Transducer σe) (encB hpres : List Vec)
    (sts : List DecState) (b : ℕ) (hb : b < encB.length)
    (h1 : hpres.length = encB.length) (h2 : sts.length = encB.length) :
    (greedyStep M encB hpres sts).1.getD b 0
        = argmaxIdx (logSoftmax (M.joint (vecAdd (encB.getD b []) (hpres.getD b [])))) ∧
    (greedyStep M encB hpres sts).2.1.getD b 0
        = maxVal (logSoftmax (M.joint (vecAdd (encB.getD b []) (hpres.getD b [])))) ∧
    (greedyStep M encB hpres sts).2.2.1.getD b []
        = (if (greedyStep M encB hpres sts).1.getD b 0 = M.blank then hpres.getD b []
           else (M.decStep (sts.getD b []) ((greedyStep M encB hpres sts).1.getD b 0)).1) ∧
    (greedyStep M encB hpres sts).2.2.2.getD b []
        = (if (greedyStep M encB hpres sts).1.getD b 0 = M.blank then sts.getD b []
           else (M.decStep (sts.getD b []) ((greedyStep M encB hpres sts).1.getD b 0)).2) := by
  have hprobs : (List.zipWith (fun e d => logSoftmax (M.joint (vecAdd e d))) encB hpres).length
      = encB.length := by simp [List.length_zipWith, h1]
  have hpred : (greedyStep M encB hpres sts).1.getD b 0
      = argmaxIdx (logSoftmax (M.joint (vecAdd (encB.getD b []) (hpres.getD b [])))) := by
    show ((List.zipWith (fun e d => logSoftmax (M.joint (vecAdd e d))) encB hpres).map
        argmaxIdx).getD b 0 = _
    rw [map_getD _ _ b (by rw [hprobs]; exact hb) 0 [],
      zipWith_getD _ encB hpres b hb (by rw [h1]; exact hb) [] [] []]
  have hadv : (List.zipWith (fun s p => M.decStep s p) sts
        ((List.zipWith (fun e d => logSoftmax (M.joint (vecAdd e d))) encB hpres).map
          argmaxIdx)).getD b ([], [])
      = M.decStep (sts.getD b []) ((greedyStep M encB hpres sts).1.getD b 0) := by
    rw [zipWith_getD _ sts _ b (by rw [h2]; exact hb)
      (by rw [List.length_map, hprobs]; exact hb) ([], []) [] 0]
    rfl
  refine ⟨hpred, ?_, ?_, ?_⟩
  · show ((List.zipWith (fun e d => logSoftmax (M.joint (vecAdd e d))) encB hpres).map
        maxVal).getD b 0 = _
    rw [map_getD _ _ b (by rw [hprobs]; exact hb) 0 [],
      zipWith_getD _ encB hpres b hb (by rw [h1]; exact hb) [] [] []]
  · show (zipWith3 (fun p d (a : Vec × DecState) => if p = M.blank then d else a.1) _ hpres
        _).getD b [] = _
    rw [zipWith3_getD _ _ hpres _ b (by rw [List.length_map, hprobs]; exact hb)
      (by rw [h1]; exact hb)
      (by rw [List.length_zipWith, h2, List.length_map, hprobs]; simpa using hb) [] 0 [] ([], [])]
    rw [hadv]
    rfl
  · show (zipWith3 (fun p s (a : Vec × DecState) => if p = M.blank then s else a.2) _ sts
        _).getD b [] = _
    rw [zipWith3_getD _ _ sts _ b (by rw [List.length_map, hprobs]; exact hb)
      (by rw [h2]; exact hb)
      (by rw [List.length_zipWith, h2, List.length_map, hprobs]; simpa using hb) [] 0 [] ([], [])]
    rw [hadv]
    rfl

/-- Claim C2: at every time step of the greedy loop, for every batch
element whose chosen (arg-max) token equals blank, the predictor hidden
output and every layer of the recurrent `(h, c)` state of that element
are left exactly equal to their values before the step; for every
element whose chosen token is non-blank, they equal the freshly advanced
candidate values `M.decStep (old state) (chosen token)`.  The update of
element `b` depends only on element `b`'s own data (per-batch-element
independence), and the per-layer equality is stated for every layer
index of the recurrent state. -/
theorem greedy_step_blank_masking (M : Transducer σe) (encB hpres : List Vec)
    (sts : List DecState) (b : ℕ) (hb : b < encB.length)
    (h1 : hpres.length = encB.length) (h2 : sts.length = encB.length) :
    ((greedyStep M encB hpres sts).1.getD b 0 = M.blank →
      (greedyStep M encB hpres sts).2.2.1.getD b [] = hpres.getD b [] ∧
      (greedyStep M encB hpres sts).2.2.2.getD b [] = sts.getD b [] ∧
      ∀ layer : ℕ, ((greedyStep M encB hpres sts).2.2.2.getD b []).getD layer ([], [])
          = (sts.getD b []).getD layer ([], [])) ∧
    ((greedyStep M encB hpres sts).1.getD b 0 ≠ M.blank →
      (greedyStep M encB hpres sts).2.2.1.getD b []
          = (M.decStep (sts.getD b []) ((greedyStep M encB hpres sts).1.getD b 0)).1 ∧
      (greedyStep M encB hpres sts).2.2.2.getD b []
          = (M.decStep (sts.getD b []) ((greedyStep M encB hpres sts).1.getD b 0)).2) := by
  obtain ⟨-, -, h3, h4⟩ := greedyStep_getD M encB hpres sts b hb h1 h2
  constructor
  · intro hblank
    rw [h3, h4, if_pos hblank, if_pos hblank]
    exact ⟨rfl, rfl, fun _ => rfl⟩
  · intro hblank
    rw [h3, h4, if_neg hblank, if_neg hblank]
    exact ⟨rfl, rfl⟩

/-- Claim C2 witness: a concrete two-element batch instantiation of
`greedy_step_blank_masking`. -/
theorem greedy_step_blank_masking_witness :
    (0 < ([[(0:ℝ)], [(1:ℝ)]] : List Vec).length ∧
     ([[(0:ℝ)], [(0:ℝ)]] : List Vec).length = ([[(0:ℝ)], [(1:ℝ)]] : List Vec).length ∧
     ([[([(0:ℝ)], [(0:ℝ)])], [([(0:ℝ)], [(0:ℝ)])]] : List DecState).length
        = ([[(0:ℝ)], [(1:ℝ)]] : List Vec).length) ∧
    (((greedyStep Mex [[(0:ℝ)], [(1:ℝ)]] [[(0:ℝ)], [(0:ℝ)]]
          [[([(0:ℝ)], [(0:ℝ)])], [([(0:ℝ)], [(0:ℝ)])]]).1.getD 0 0 = Mex.blank →
      (greedyStep Mex [[(0:ℝ)], [(1:ℝ)]] [[(0:ℝ)], [(0:ℝ)]]
          [[([(0:ℝ)], [(0:ℝ)])], [([(0:ℝ)], [(0:ℝ)])]]).2.2.1.getD 0 []
        = ([[(0:ℝ)], [(0:ℝ)]] : List Vec).getD 0 [] ∧
      (greedyStep Mex [[(0:ℝ)], [(1:ℝ)]] [[(0:ℝ)], [(0:ℝ)]]
          [[([(0:ℝ)], [(0:ℝ)])], [([(0:ℝ)], [(0:ℝ)])]]).2.2.2.getD 0 []
        = ([[([(0:ℝ)], [(0:ℝ)])], [([(0:ℝ)], [(0:ℝ)])]] : List DecState).getD 0 [] ∧
      ∀ layer : ℕ,
        ((greedyStep Mex [[(0:ℝ)], [(1:ℝ)]] [[(0:ℝ)], [(0:ℝ)]]
            [[([(0:ℝ)], [(0:ℝ)])], [([(0:ℝ)], [(0:ℝ)])]]).2.2.2.getD 0 []).getD layer ([], [])
          = (([[([(0:ℝ)], [(0:ℝ)])], [([(0:ℝ)], [(0:ℝ)])]] : List DecState).getD 0 []).getD
              layer ([], [])) ∧
    ((greedyStep Mex [[(0:ℝ)], [(1:ℝ)]] [[(0:ℝ)], [(0:ℝ)]]
          [[([(0:ℝ)], [(0:ℝ)])], [([(0:ℝ)], [(0:ℝ)])]]).1.getD 0 0 ≠ Mex.blank →
      (greedyStep Mex [[(0:ℝ)], [(1:ℝ)]] [[(0:ℝ)], [(0:ℝ)]]
          [[([(0:ℝ)], [(0:ℝ)])], [([(0:ℝ)], [(0:ℝ)])]]).2.2.1.getD 0 []
        = (Mex.decStep (([[([(0:ℝ)], [(0:ℝ)])], [([(0:ℝ)], [(0:ℝ)])]] : List DecState).getD 0 [])
            ((greedyStep Mex [[(0:ℝ)], [(1:ℝ)]] [[(0:ℝ)], [(0:ℝ)]]
              [[([(0:ℝ)], [(0:ℝ)])], [([(0:ℝ)], [(0:ℝ)])]]).1.getD 0 0)).1 ∧
      (greedyStep Mex [[(0:ℝ)], [(1:ℝ)]] [[(0:ℝ)], [(0:ℝ)]]
          [[([(0:ℝ)], [(0:ℝ)])], [([(0:ℝ)], [(0:ℝ)])]]).2.2.2.getD 0 []
        = (Mex.decStep (([[([(0:ℝ)], [(0:ℝ)])], [([(0:ℝ)], [(0:ℝ)])]] : List DecState).getD 0 [])
            ((greedyStep Mex [[(0:ℝ)], [(1:ℝ)]] [[(0:ℝ)], [(0:ℝ)]]
              [[([(0:ℝ)], [(0:ℝ)])], [([(0:ℝ)], [(0:ℝ)])]]).1.getD 0 0)).2)) :=
  ⟨⟨by decide, rfl, rfl⟩,
    greedy_step_blank_masking Mex [[(0:ℝ)], [(1:ℝ)]] [[(0:ℝ)], [(0:ℝ)]]
      [[([(0:ℝ)], [(0:ℝ)])], [([(0:ℝ)], [(0:ℝ)])]] 0 (by decide) rfl rfl⟩

theorem greedyLoop_length (M : Transducer σe) (henc : List (List Vec)) :
    ∀ (ts : List ℕ) (hpres : List Vec) (sts : List DecState),
      hpres.length = henc.length → sts.length = henc.length →
      (greedyLoop M henc ts hpres sts).1.length = henc.length ∧
      (greedyLoop M henc ts hpres sts).2.length = henc.length
  | [], hpres, sts, hh, _ => by simp [greedyLoop, hh]
  | i :: rest, hpres, sts, hh, hs => by
    have hencB : (henc.map (fun row => row.getD i [])).length = henc.length := by simp
    obtain ⟨l1, l2, l3, l4⟩ := greedyStep_lengths M (henc.map (fun row => row.getD i []))
      hpres sts (by rw [hh, hencB]) (by rw [hs, hencB])
    obtain ⟨ih1, ih2⟩ := greedyLoop_length M henc rest _ _
      (by rw [l3, hencB]) (by rw [l4, hencB])
    constructor
    · show (List.zipWith _ _ _).length = _
      rw [List.length_zipWith, l1, hencB, ih1, min_self]
    · show (List.zipWith _ _ _).length = _
      rw [List.length_zipWith, l2, hencB, ih2, min_self]

/-- Batched-to-per-element factorisation of the greedy loop: the token
row and the log-probability sum that the batched loop produces for batch
element `b` are exactly the ones of the straight-line per-element
decoder `decodeSteps` run on element `b`'s own encoder outputs and
initial predictor data.  In particular no other batch element and no
`valid_length` influences them. -/
theorem greedyLoop_elem (M : Transducer σe) (henc : List (List Vec)) :
    ∀ (ts : List ℕ) (hpres : List Vec) (sts : List DecState) (b : ℕ),
      b < henc.length → hpres.length = henc.length → sts.length = henc.length →
      (greedyLoop M henc ts hpres sts).1.getD b []
        = (decodeSteps M (ts.map (fun i => (henc.getD b []).getD i []))
            (hpres.getD b []) (sts.getD b [])).map Prod.fst ∧
      (greedyLoop M henc ts hpres sts).2.getD b 0
        = ((decodeSteps M (ts.map (fun i => (henc.getD b []).getD i []))
            (hpres.getD b []) (sts.getD b [])).map Prod.snd).sum
  | [], hpres, sts, b, hb, hh, hs => by
    constructor
    · show (hpres.map _).getD b [] = _
      rw [map_getD _ hpres b (by rw [hh]; exact hb) [] []]
      simp [decodeSteps]
    · show (hpres.map _).getD b 0 = _
      rw [map_getD _ hpres b (by rw [hh]; exact hb) 0 []]
      simp [decodeSteps]
  | i :: rest, hpres, sts, b, hb, hh, hs => by
    have hencB : (henc.map (fun row => row.getD i [])).length = henc.length := by simp
    have hEb : (henc.map (fun row => row.getD i [])).getD b []
        = (henc.getD b []).getD i [] := map_getD _ henc b hb [] []
    obtain ⟨l1, l2, l3, l4⟩ := greedyStep_lengths M (henc.map (fun row => row.getD i []))
      hpres sts (by rw [hh, hencB]) (by rw [hs, hencB])
    obtain ⟨g1, g2, g3, g4⟩ := greedyStep_getD M (henc.map (fun row => row.getD i []))
      hpres sts b (by rw [hencB]; exact hb) (by rw [hh, hencB]) (by rw [hs, hencB])
    obtain ⟨loop1, loop2⟩ := greedyLoop_length M henc rest
      (greedyStep M (henc.map (fun row => row.getD i [])) hpres sts).2.2.1
      (greedyStep M (henc.map (fun row => row.getD i [])) hpres sts).2.2.2
      (by rw [l3, hencB]) (by rw [l4, hencB])
    obtain ⟨ih1, ih2⟩ := greedyLoop_elem M henc rest
      (greedyStep M (henc.map (fun row => row.getD i [])) hpres sts).2.2.1
      (greedyStep M (henc.map (fun row => row.getD i [])) hpres sts).2.2.2
      b hb (by rw [l3, hencB]) (by rw [l4, hencB])
    rw [hEb] at g1 g2
    constructor
    · show (List.zipWith (fun p ys => p :: ys) _ _).getD b [] = _
      rw [zipWith_getD _ _ _ b (by rw [l1, hencB]; exact hb)
        (by rw [loop1]; exact hb) [] 0 []]
      rw [ih1, g3, g4]
      show _ = (decodeSteps M (((henc.getD b []).getD i []) :: _) _ _).map Prod.fst
      rw [decodeSteps]
      simp only [List.map_cons]
      rw [g1]
    · show (List.zipWith (fun q s => q + s) _ _).getD b 0 = _
      rw [zipWith_getD _ _ _ b (by rw [l2, hencB]; exact hb)
        (by rw [loop2]; exact hb) 0 0 0]
      rw [ih2, g2, g3, g4]
      show _ = ((decodeSteps M (((henc.getD b []).getD i []) :: _) _ _).map Prod.snd).sum
      rw [decodeSteps]
      simp only [List.map_cons, List.sum_cons]
      rw [g1]

theorem encOut_length (M : Transducer σe) :
    ∀ (s : σe) (l : List Vec), (encOut M s l).length = l.length
  | _, [] => rfl
  | s, f :: rest => by simp [encOut, encOut_length M _ rest]

theorem encodeSeq_length (M : Transducer σe) (l : List Vec) :
    (encodeSeq M l).length = l.length := by
  simp [encodeSeq, encOut_length]

theorem encOut_take (M : Transducer σe) :
    ∀ (s : σe) (l : List Vec) (n : ℕ),
      encOut M s (l.take n) = (encOut M s l).take n
  | _, [], n => by simp [encOut]
  | _, _ :: _, 0 => by simp [encOut]
  | s, f :: rest, n + 1 => by
    simp [encOut, encOut_take M _ rest n]

theorem encodeSeq_take (M : Transducer σe) (l : List Vec) (n : ℕ) :
    encodeSeq M (l.take n) = (encodeSeq M l).take n := by
  rw [encodeSeq, encodeSeq, encOut_take, List.map_take]

theorem decodeSteps_length (M : Transducer σe) :
    ∀ (l : List Vec) (hpre : Vec) (st : DecState),
      (decodeSteps M l hpre st).length = l.length
  | [], _, _ => rfl
  | e :: rest, hpre, st => by
    simp only [decodeSteps, List.length_cons]
    rw [decodeSteps_length M rest]

theorem decodeSteps_take (M : Transducer σe) :
    ∀ (l : List Vec) (hpre : Vec) (st : DecState) (n : ℕ),
      decodeSteps M (l.take n) hpre st = (decodeSteps M l hpre st).take n
  | [], _, _, n => by simp [decodeSteps]
  | _ :: _, _, _, 0 => by simp [decodeSteps]
  | e :: rest, hpre, st, n + 1 => by
    simp only [List.take_succ_cons, decodeSteps]
    rw [decodeSteps_take M rest]

theorem range_map_getD (l : List α) (d : α) :
    (List.range l.length).map (fun i => l.getD i d) = l := by
  apply List.ext_getElem
  · simp
  · intro i h1 h2
    rw [List.getElem_map, List.getElem_range, List.getD_eq_getElem l d h2]

theorem tensorT_map_encodeSeq (M : Transducer σe) (xs : List (List Vec)) :
    tensorT (xs.map (fun row => encodeSeq M row)) = tensorT xs := by
  cases xs with
  | nil => rfl
  | cons x rest => simp [tensorT, encodeSeq_length]

/-- Element `b` of `greedyRaw`: spelled out through the per-element
decoder when element `b`'s row has the tensor's common time length. -/
theorem greedyRaw_elem (M : Transducer σe) (xs : List (List Vec)) (b : ℕ)
    (hb : b < xs.length) (hrect : (xs.getD b []).length = tensorT xs) :
    (greedyRaw M xs).1.getD b []
      = (decodeSteps M (encodeSeq M (xs.getD b []))
          (M.decStep M.decInit BOS).1 (M.decStep M.decInit BOS).2).map Prod.fst ∧
    (greedyRaw M xs).2.getD b 0
      = ((decodeSteps M (encodeSeq M (xs.getD b []))
          (M.decStep M.decInit BOS).1 (M.decStep M.decInit BOS).2).map Prod.snd).sum := by
  have hlen : (xs.map (fun row => encodeSeq M row)).length = xs.length := by simp
  have hEb : (xs.map (fun row => encodeSeq M row)).getD b []
      = encodeSeq M (xs.getD b []) := map_getD _ xs b hb [] []
  have hT : tensorT (xs.map (fun row => encodeSeq M row))
      = (encodeSeq M (xs.getD b [])).length := by
    rw [tensorT_map_encodeSeq, encodeSeq_length, hrect]
  obtain ⟨e1, e2⟩ := greedyLoop_elem M (xs.map (fun row => encodeSeq M row))
    (List.range (tensorT (xs.map (fun row => encodeSeq M row))))
    (List.replicate xs.length (M.decStep M.decInit BOS).1)
    (List.replicate xs.length (M.decStep M.decInit BOS).2)
    b (by rw [hlen]; exact hb) (by simp) (by simp)
  have hrange : (List.range (tensorT (xs.map (fun row => encodeSeq M row)))).map
      (fun i => (encodeSeq M (xs.getD b [])).getD i []) = encodeSeq M (xs.getD b []) := by
    rw [hT]
    exact range_map_getD _ []
  rw [hEb, replicate_getD _ _ _ hb, replicate_getD _ _ _ hb, hrange] at e1 e2
  exact ⟨e1, e2⟩

/-- Claim C1 counterexample companion (amended statement): the score
that `greedy_decode` returns for batch element `b` is the negative of
the sum of the chosen (arg-max) per-step log-probabilities of ALL
`T = h_enc.shape[1]` encoder time steps of that element — blank steps
included and steps beyond `valid_length` included as well — and the
whole score vector is completely independent of `valid_lengths`. -/
theorem greedy_score_sums_all_steps (M : Transducer σe) (xs : List (List Vec))
    (xlen xlen2 : List ℕ) (b : ℕ) (hb : b < xs.length)
    (hrect : (xs.getD b []).length = tensorT xs) :
    (greedy_decode M xs xlen).2.getD b 0
      = -(((decodeSteps M (encodeSeq M (xs.getD b []))
          (M.decStep M.decInit BOS).1 (M.decStep M.decInit BOS).2).map Prod.snd).sum) ∧
    (greedy_decode M xs xlen).2 = (greedy_decode M xs xlen2).2 := by
  refine ⟨?_, rfl⟩
  obtain ⟨-, e2⟩ := greedyRaw_elem M xs b hb hrect
  have hlen2 : b < (greedyRaw M xs).2.length := by
    have hlen : (xs.map (fun row => encodeSeq M row)).length = xs.length := by simp
    obtain ⟨-, h2⟩ := greedyLoop_length M (xs.map (fun row => encodeSeq M row))
      (List.range (tensorT (xs.map (fun row => encodeSeq M row))))
      (List.replicate xs.length (M.decStep M.decInit BOS).1)
      (List.replicate xs.length (M.decStep M.decInit BOS).2) (by simp) (by simp)
    show b < (greedyLoop M _ _ _ _).2.length
    rw [h2, hlen]
    exact hb
  show ((greedyRaw M xs).2.map (fun s => -s)).getD b 0 = _
  rw [map_getD _ _ b hlen2 0 0, List.getD_eq_getElem _ 0 hlen2] at *
  rw [← e2]

/-- Claim C1 amended-statement witness: the amended theorem applied to
the concrete batch of three identical 5-frame sequences. -/
theorem greedy_score_sums_all_steps_witness :
    (0 < xsEx.length ∧ (xsEx.getD 0 []).length = tensorT xsEx) ∧
    ((greedy_decode Mex xsEx [5, 3, 5]).2.getD 0 0
      = -(((decodeSteps Mex (encodeSeq Mex (xsEx.getD 0 []))
          (Mex.decStep Mex.decInit BOS).1 (Mex.decStep Mex.decInit BOS).2).map Prod.snd).sum) ∧
    (greedy_decode Mex xsEx [5, 3, 5]).2 = (greedy_decode Mex xsEx [5, 5, 5]).2) :=
  ⟨⟨by decide, rfl⟩,
    greedy_score_sums_all_steps Mex xsEx [5, 3, 5] [5, 5, 5] 0 (by decide) rfl⟩

/-- Claim C3: no token sequence returned by `greedy_decode` contains the
blank token: line 234 of models.py filters `tok != self.blank` out of
every returned row (rows beyond the output list give the empty default,
which also contains no blank). -/
theorem greedy_decode_no_blank (M : Transducer σe) (xs : List (List Vec))
    (xlen : List ℕ) (b : ℕ) :
    M.blank ∉ (greedy_decode M xs xlen).1.getD b [] := by
  show M.blank ∉ (List.zipWith _ (greedyRaw M xs).1 xlen).getD b []
  rcases Nat.lt_or_ge b (List.zipWith (fun (seq : List ℕ) (len : ℕ) =>
      (seq.take len).filter (fun tok => tok != M.blank)) (greedyRaw M xs).1 xlen).length
    with h | h
  · rw [List.getD_eq_getElem _ [] h]
    rw [List.getElem_zipWith]
    intro hmem
    have := List.of_mem_filter hmem
    simp at this
  · rw [List.getD_eq_default _ [] h]
    exact List.not_mem_nil M.blank

/-- Claim C4: for a batch element with `valid_length = L ≤ T`, the
pre-blank-removal token record considered on line 233
(`seq.cpu().numpy()[:seq_len]`) has exactly `L` entries, and changing
the features of that element at positions `≥ L` (or changing other
batch elements entirely) does not change the element's returned token
sequence — the encoder is a causal scan and the loop is per-element, so
only the first `L` frames of element `b` matter. -/
theorem greedy_truncation_padding_invariance (M : Transducer σe)
    (xs xs2 : List (List Vec)) (xlen : List ℕ) (b L : ℕ)
    (hb : b < xs.length) (hb2 : b < xs2.length) (hbl : b < xlen.length)
    (hr : (xs.getD b []).length = tensorT xs)
    (hr2 : (xs2.getD b []).length = tensorT xs2)
    (hL : xlen.getD b 0 = L) (hLT : L ≤ tensorT xs)
    (hagree : (xs.getD b []).take L = (xs2.getD b []).take L) :
    (((greedyRaw M xs).1.getD b []).take L).length = L ∧
    (greedy_decode M xs xlen).1.getD b [] = (greedy_decode M xs2 xlen).1.getD b [] := by
  obtain ⟨e1, -⟩ := greedyRaw_elem M xs b hb hr
  obtain ⟨f1, -⟩ := greedyRaw_elem M xs2 b hb2 hr2
  have key : ((greedyRaw M xs).1.getD b []).take L
      = ((greedyRaw M xs2).1.getD b []).take L := by
    rw [e1, f1, ← List.map_take, ← List.map_take,
      ← decodeSteps_take, ← decodeSteps_take,
      ← encodeSeq_take, ← encodeSeq_take, hagree]
  constructor
  · rw [e1, List.length_take, List.length_map, decodeSteps_length,
      encodeSeq_length, hr]
    omega
  · have hlen : b < (greedyRaw M xs).1.length := by
      obtain ⟨h1, -⟩ := greedyLoop_length M (xs.map (fun row => encodeSeq M row))
        (List.range (tensorT (xs.map (fun row => encodeSeq M row))))
        (List.replicate xs.length (M.decStep M.decInit BOS).1)
        (List.replicate xs.length (M.decStep M.decInit BOS).2) (by simp) (by simp)
      show b < (greedyLoop M _ _ _ _).1.length
      rw [h1]
      simpa using hb
    have hlen2 : b < (greedyRaw M xs2).1.length := by
      obtain ⟨h1, -⟩ := greedyLoop_length M (xs2.map (fun row => encodeSeq M row))
        (List.range (tensorT (xs2.map (fun row => encodeSeq M row))))
        (List.replicate xs2.length (M.decStep M.decInit BOS).1)
        (List.replicate xs2.length (M.decStep M.decInit BOS).2) (by simp) (by simp)
      show b < (greedyLoop M _ _ _ _).1.length
      rw [h1]
      simpa using hb2
    show (List.zipWith _ (greedyRaw M xs).1 xlen).getD b []
        = (List.zipWith _ (greedyRaw M xs2).1 xlen).getD b []
    rw [zipWith_getD _ _ xlen b hlen hbl [] [] 0,
      zipWith_getD _ _ xlen b hlen2 hbl [] [] 0, hL, key]

/-- Claim C4 witness: the truncation/padding-invariance theorem applied
to a concrete one-element batch whose two variants agree on the first
frame and differ at the padded second frame. -/
theorem greedy_truncation_padding_invariance_witness :
    (0 < ([[[(0:ℝ)], [(0:ℝ)]]] : List (List Vec)).length ∧
     0 < ([[[(0:ℝ)], [(1:ℝ)]]] : List (List Vec)).length ∧
     0 < ([1] : List ℕ).length ∧
     (([[[(0:ℝ)], [(0:ℝ)]]] : List (List Vec)).getD 0 []).length
        = tensorT ([[[(0:ℝ)], [(0:ℝ)]]] : List (List Vec)) ∧
     (([[[(0:ℝ)], [(1:ℝ)]]] : List (List Vec)).getD 0 []).length
        = tensorT ([[[(0:ℝ)], [(1:ℝ)]]] : List (List Vec)) ∧
     ([1] : List ℕ).getD 0 0 = 1 ∧
     1 ≤ tensorT ([[[(0:ℝ)], [(0:ℝ)]]] : List (List Vec)) ∧
     (([[[(0:ℝ)], [(0:ℝ)]]] : List (List Vec)).getD 0 []).take 1
        = (([[[(0:ℝ)], [(1:ℝ)]]] : List (List Vec)).getD 0 []).take 1) ∧
    ((((greedyRaw Mex [[[(0:ℝ)], [(0:ℝ)]]]).1.getD 0 []).take 1).length = 1 ∧
     (greedy_decode Mex [[[(0:ℝ)], [(0:ℝ)]]] [1]).1.getD 0 []
        = (greedy_decode Mex [[[(0:ℝ)], [(1:ℝ)]]] [1]).1.getD 0 []) :=
  ⟨⟨by decide, by decide, by decide, rfl, rfl, rfl, by decide, rfl⟩,
    greedy_truncation_padding_invariance Mex [[[(0:ℝ)], [(0:ℝ)]]] [[[(0:ℝ)], [(1:ℝ)]]]
      [1] 0 1 (by decide) (by decide) (by decide) rfl rfl rfl (by decide) rfl⟩

/-- Claim C7 amended-statement companion: `greedy_decode` performs no
shape validation at all.  With `B` feature rows and `K` valid-length
entries it returns `min B K` token sequences — Python's `zip` on
line 232 silently drops the elements beyond the shorter list — while
the score vector always keeps `B` entries.  No error is raised. -/
theorem greedy_decode_zip_truncates (M : Transducer σe) (xs : List (List Vec))
    (xlen : List ℕ) :
    (greedy_decode M xs xlen).1.length = min xs.length xlen.length ∧
    (greedy_decode M xs xlen).2.length = xs.length := by
  obtain ⟨h1, h2⟩ := greedyLoop_length M (xs.map (fun row => encodeSeq M row))
    (List.range (tensorT (xs.map (fun row => encodeSeq M row))))
    (List.replicate xs.length (M.decStep M.decInit BOS).1)
    (List.replicate xs.length (M.decStep M.decInit BOS).2) (by simp) (by simp)
  constructor
  · show (List.zipWith _ (greedyLoop M _ _ _ _).1 xlen).length = _
    rw [List.length_zipWith, h1]
    simp
  · show ((greedyLoop M _ _ _ _).2.map _).length = _
    rw [List.length_map, h2]
    simp

/- ------------------------------------------------------------------
   Claim C10: nonnegativity of the returned scores
   ------------------------------------------------------------------ -/

theorem mem_zipWith (f : α → β → γ) :
    ∀ (l1 : List α) (l2 : List β) (c : γ), c ∈ List.zipWith f l1 l2 → ∃ a b, c = f a b
  | a :: l1, b :: l2, c, h => by
    rcases List.mem_cons.mp h with h | h
    · exact ⟨a, b, h⟩
    · exact mem_zipWith f l1 l2 c h
  | [], _, c, h => by simp at h
  | _ :: _, [], c, h => by simp at h

theorem foldr_max_le (c : ℝ) :
    ∀ (l : List ℝ) (d : ℝ), d ≤ c → (∀ x ∈ l, x ≤ c) → l.foldr max d ≤ c
  | [], d, hd, _ => hd
  | x :: rest, d, hd, h => by
    simp only [List.foldr_cons]
    exact max_le (h x (List.mem_cons_self x rest))
      (foldr_max_le c rest d hd (fun y hy => h y (List.mem_cons_of_mem x hy)))

theorem maxVal_le_of_forall (l : List ℝ) (c : ℝ) (hne : l ≠ [])
    (h : ∀ x ∈ l, x ≤ c) : maxVal l ≤ c := by
  cases l with
  | nil => exact absurd rfl hne
  | cons x rest =>
    exact foldr_max_le c (x :: rest) ((x :: rest).headD 0)
      (h x (List.mem_cons_self x rest)) h

/-- Every entry of a log-softmax row is nonpositive: the corresponding
probability `exp x / Σ exp` is at most 1. -/
theorem logSoftmax_nonpos (l : List ℝ) : ∀ x ∈ logSoftmax l, x ≤ 0 := by
  intro x hx
  simp only [logSoftmax, List.mem_map] at hx
  obtain ⟨y, hy, rfl⟩ := hx
  have hmem : Real.exp y ∈ l.map Real.exp := List.mem_map_of_mem Real.exp hy
  have hle : Real.exp y ≤ (l.map Real.exp).sum :=
    List.single_le_sum (fun z hz => by
      simp only [List.mem_map] at hz
      obtain ⟨w, -, rfl⟩ := hz
      exact (Real.exp_pos w).le) _ hmem
  have : y ≤ Real.log ((l.map Real.exp).sum) := by
    calc y = Real.log (Real.exp y) := (Real.log_exp y).symm
      _ ≤ Real.log ((l.map Real.exp).sum) := Real.log_le_log (Real.exp_pos y) hle
  linarith

theorem logSoftmax_ne_nil (l : List ℝ) (h : l ≠ []) : logSoftmax l ≠ [] := by
  simp [logSoftmax, h]

/-- Invariant of the greedy time loop: every accumulated per-element
log-probability sum is nonpositive (each step adds the maximum of a
log-softmax row), as long as the joint network never returns an empty
logits row. -/
theorem greedyLoop_logp_nonpos (M : Transducer σe) (henc : List (List Vec))
    (hjoint : ∀ v, M.joint v ≠ []) :
    ∀ (ts : List ℕ) (hpres : List Vec) (sts : List DecState) (b : ℕ),
      (greedyLoop M henc ts hpres sts).2.getD b 0 ≤ 0
  | [], hpres, sts, b => by
    show (hpres.map _).getD b 0 ≤ 0
    rcases Nat.lt_or_ge b (hpres.map (fun _ => (0:ℝ))).length with h | h
    · rw [List.getD_eq_getElem _ 0 h, List.getElem_map]
    · rw [List.getD_eq_default _ 0 h]
  | i :: rest, hpres, sts, b => by
    show (List.zipWith (fun q s => q + s) _ _).getD b 0 ≤ 0
    rcases Nat.lt_or_ge b (List.zipWith (fun q s => q + s)
        (greedyStep M (henc.map (fun row => row.getD i [])) hpres sts).2.1
        (greedyLoop M henc rest
          (greedyStep M (henc.map (fun row => row.getD i [])) hpres sts).2.2.1
          (greedyStep M (henc.map (fun row => row.getD i [])) hpres sts).2.2.2).2).length
      with h | h
    · have hblen : b < (greedyStep M (henc.map (fun row => row.getD i []))
          hpres sts).2.1.length := by
        rw [List.length_zipWith] at h
        omega
      have hrlen : b < (greedyLoop M henc rest
          (greedyStep M (henc.map (fun row => row.getD i [])) hpres sts).2.2.1
          (greedyStep M (henc.map (fun row => row.getD i [])) hpres sts).2.2.2).2.length := by
        rw [List.length_zipWith] at h
        omega
      rw [zipWith_getD (fun q s => q + s) _ _ b hblen hrlen 0 0 0]
      have hall : ∀ x ∈ (greedyStep M (henc.map (fun row => row.getD i []))
          hpres sts).2.1, x ≤ 0 := by
        intro x hx
        simp only [greedyStep, List.mem_map] at hx
        obtain ⟨row, hrow, rfl⟩ := hx
        obtain ⟨e, d, rfl⟩ := mem_zipWith _ _ _ row hrow
        exact maxVal_le_of_forall _ 0 (logSoftmax_ne_nil _ (hjoint _))
          (logSoftmax_nonpos _)
      have hmem : (greedyStep M (henc.map (fun row => row.getD i []))
          hpres sts).2.1.getD b 0 ∈ (greedyStep M (henc.map (fun row => row.getD i []))
          hpres sts).2.1 := by
        rw [List.getD_eq_getElem _ 0 hblen]
        exact List.getElem_mem hblen
      have h1 := hall _ hmem
      have h2 := greedyLoop_logp_nonpos M henc hjoint rest
        (greedyStep M (henc.map (fun row => row.getD i [])) hpres sts).2.2.1
        (greedyStep M (henc.map (fun row => row.getD i [])) hpres sts).2.2.2 b
      linarith
    · rw [List.getD_eq_default _ 0 h]

/-- Claim C10: every entry of the `neg_log_prob` vector returned by
`greedy_decode` is nonnegative, because each per-step chosen
log-probability is the maximum of a log-softmax row and therefore
nonpositive, their sum over the time loop is nonpositive, and the
returned score is its negation (models.py lines 215-229 and 235) —
given that the joint network's logits row is never empty (the
vocabulary contains at least the reserved tokens). -/
theorem greedy_neg_log_prob_nonneg (M : Transducer σe) (xs : List (List Vec))
    (xlen : List ℕ) (hjoint : ∀ v, M.joint v ≠ []) (b : ℕ) :
    0 ≤ (greedy_decode M xs xlen).2.getD b 0 := by
  show 0 ≤ ((greedyRaw M xs).2.map (fun s => -s)).getD b 0
  rcases Nat.lt_or_ge b ((greedyRaw M xs).2.map (fun s => -s)).length with h | h
  · have hb2 : b < (greedyRaw M xs).2.length := by simpa using h
    rw [List.getD_eq_getElem _ 0 h, List.getElem_map]
    have := greedyLoop_logp_nonpos M (xs.map (fun row => encodeSeq M row)) hjoint
      (List.range (tensorT (xs.map (fun row => encodeSeq M row))))
      (List.replicate xs.length (M.decStep M.decInit BOS).1)
      (List.replicate xs.length (M.decStep M.decInit BOS).2) b
    rw [show (greedyLoop M (xs.map (fun row => encodeSeq M row))
      (List.range (tensorT (xs.map (fun row => encodeSeq M row))))
      (List.replicate xs.length (M.decStep M.decInit BOS).1)
      (List.replicate xs.length (M.decStep M.decInit BOS).2)).2
        = (greedyRaw M xs).2 from rfl, List.getD_eq_getElem _ 0 hb2] at this
    linarith
  · rw [List.getD_eq_default _ 0 h]

/-- Claim C10 witness: the nonnegativity theorem applied to the concrete
instance `Mex` (whose joint network always returns two logits). -/
theorem greedy_neg_log_prob_nonneg_witness :
    (∀ v, Mex.joint v ≠ []) ∧ 0 ≤ (greedy_decode Mex xsEx [5, 3, 5]).2.getD 0 0 :=
  ⟨fun _ => List.cons_ne_nil _ _,
    greedy_neg_log_prob_nonneg Mex xsEx [5, 3, 5] (fun _ => List.cons_ne_nil _ _) 0⟩

/-- Claim C5 (code-bug evidence): `LayerNormRNN.forward` never applies
the per-layer `self.projs` pipeline that `__init__` builds — each
layer's raw recurrent output is fed directly to the next layer, so on a
one-layer stack with an identity recurrent part and a pipeline that adds
1, the code returns the input unchanged while the spec-described
composition returns the processed value, and the two differ. -/
theorem layerNorm_projs_not_applied :
    (layerNormRNN_forward [lnLayerEx] [[(0:ℝ)]]).1 = [[(0:ℝ)]] ∧
    (layerNormRNN_forwardSpec [lnLayerEx] [[(0:ℝ)]]).1 = [[(0:ℝ) + 1]] ∧
    (layerNormRNN_forward [lnLayerEx] [[(0:ℝ)]]).1
      ≠ (layerNormRNN_forwardSpec [lnLayerEx] [[(0:ℝ)]]).1 := by
  refine ⟨rfl, rfl, ?_⟩
  intro h
  rw [show (layerNormRNN_forward [lnLayerEx] [[(0:ℝ)]]).1 = [[(0:ℝ)]] from rfl,
    show (layerNormRNN_forwardSpec [lnLayerEx] [[(0:ℝ)]]).1 = [[(0:ℝ) + 1]] from rfl] at h
  norm_num at h

/- ------------------------------------------------------------------
   Claim C6: TimeReduction
   ------------------------------------------------------------------ -/

/-- Claim C6 counterexample: even in the most benign case — reduction
factor `r = 2` on a single 2-frame sequence, where the claim promises a
successful call returning one averaged step (`ceil(2/2) = 1`) — the call
fails: `nn.functional.pad` rejects the nested `pad_shape` list that
line 17 builds, so `TimeReduction.forward` raises before any padding,
grouping or averaging. -/
theorem timeReduction_pad_rejected_example :
    timeReduction 2 [[[(0:ℝ)], [(0:ℝ)]]] = none := rfl

/-- Claim C6 amended: no call to `TimeReduction.forward` succeeds for
any input and any reduction factor.  Line 17 builds the pad widths as a
nested per-axis list `[[0, 0], [0, xlen % reduction_factor], [0, 0]]`
(the TensorFlow convention), but `torch.nn.functional.pad` requires a
flat sequence of ints, so the line-18 `pad` call raises on every input,
before the `view` regrouping and `mean(dim=2)` averaging of lines 19-21
are ever reached — no padding-to-a-multiple, no group means, and no
`ceil(T/r)`-length output are ever produced. -/
theorem timeReduction_always_none (r : ℕ) (xs : List (List Vec)) :
    timeReduction r xs = none := rfl

/-- Claim C8 (code-bug evidence): `CharTokenizer.__init__` assigns
`token2id[token] = idx + 4`, so the first ordinary character `'a'`
(ASCII 97, index 0 in `valid_tokens`) receives id `0 + 4 = 4`, which is
exactly the reserved `UNK` id — contradicting the claim that every
ordinary character's id is `≥ 5` and disjoint from the reserved ids. -/
theorem charTokenizer_a_gets_unk_id : charTokenId 97 = some UNK ∧ UNK = 4 := by
  exact ⟨rfl, rfl⟩
